import Mathlib

/-
A shallow embedding of the synchronization state machine of the mdman
service (src/service/src/watcher.rs together with src/service/src/config.rs),
and proofs about the properties of its event handling and propagation.

Modelling choices, justified against the source:
- Paths are plain strings assumed canonical.  The canonicalize calls in
  handle_event and sync_file are modelled as the identity; the failure
  mode of the canonicalize call inside sync_file (a vanished source) has
  the same observable outcome as a failing source read, which the model
  does represent.
- File contents are byte lists.  The filesystem is an association list
  of present files together with the sets of paths whose reads and
  writes fail, mirroring that dest.exists() can hold while fs read of
  the same path errors, and that fs write can error independently.
- HashMap is modelled as an association list with first-binding lookup,
  in-place insert-or-replace, and erase; keys stay unique whenever the
  map is built by these operations.
- Instants are naturals; now.duration_since t is truncated subtraction.
- The observable behaviour (config reloads and saves, directory
  creation, file writes, desktop messages, per-path error logs) is
  collected in an effect trace.  Desktop message delivery is modelled
  as infallible; the mapping store load (Config::load) is modelled as
  returning the current on-disk mapping, passed as a parameter.
- An event handler error (the Rust question-mark operator bubbling out
  of handle_event, which the run loop reports with an error log) is the
  errored flag of the result.
-/

namespace Mdman

/-- Paths, assumed already canonical. -/
abbrev Path := String

/-- File contents as byte sequences. -/
abbrev Bytes := List Nat

/-- Association-list lookup; the first binding of a key wins. -/
def lookupK {α : Type} : List (Path × α) → Path → Option α
  | [], _ => none
  | (k, v) :: t, p => if k = p then some v else lookupK t p

/-- Association-list insert-or-replace, as HashMap insert. -/
def insertK {α : Type} : List (Path × α) → Path → α → List (Path × α)
  | [], p, v => [(p, v)]
  | (k, w) :: t, p, v => if k = p then (p, v) :: t else (k, w) :: insertK t p v

/-- Remove every binding of a key, as HashMap remove. -/
def eraseK {α : Type} : List (Path × α) → Path → List (Path × α)
  | [], _ => []
  | (k, w) :: t, p => if k = p then eraseK t p else (k, w) :: eraseK t p

/-- Config.mappings: each source path with its destination list. -/
abbrev Mapping := List (Path × List Path)

/-- Filesystem state: on-disk contents plus the sets of paths whose
reads or writes fail. -/
structure Fsys where
  files : List (Path × Bytes)
  readFail : List Path
  writeFail : List Path
deriving DecidableEq

/-- A read fails when the file is absent or its path is in readFail. -/
def fsRead (fs : Fsys) (p : Path) : Option Bytes :=
  if p ∈ fs.readFail then none else lookupK fs.files p

/-- A successful write records the new content. -/
def fsWrite (fs : Fsys) (p : Path) (c : Bytes) : Fsys :=
  { fs with files := insertK fs.files p c }

/-- The in-memory state of FileWatcher. -/
structure Watcher where
  mappings : Mapping
  reverse_mappings : List (Path × Path)
  last_known_content : List (Path × Bytes)
  recently_synced : List (Path × Nat)
deriving DecidableEq

/-- Observable actions of the watcher. -/
inductive Effect where
  | reloadConfig : Effect
  | saveConfig : Mapping → Effect
  | mkdirParents : Path → Effect
  | wroteFile : Path → Bytes → Effect
  | errWriteFail : Path → Effect
  | syncSummary : Path → List Path → List Path → Effect
  | desyncWarn : Path → Path → Effect
  | sourceDeletedWarn : Path → List Path → Effect
deriving DecidableEq

/-- The kinds of filesystem events the watcher distinguishes; other
stands for every notify kind that is not Create, Modify or Remove. -/
inductive EventKind where
  | create | modify | remove | other
deriving DecidableEq

/-- A raw filesystem event: one kind, one or more affected paths. -/
structure WEvent where
  kind : EventKind
  paths : List Path

/-- FileWatcher::update_reverse_mappings: clear, then for every source
and each of its destinations insert destination-to-source. -/
def buildReverse (m : Mapping) : List (Path × Path) :=
  m.foldl (fun r e => e.2.foldl (fun r' d => insertK r' d e.1) r) []

/-- The before-image used by sync_file: an absent snapshot is read as
the empty byte string (unwrap_or_else of Vec new). -/
def oldContent (st : Watcher) (source : Path) : Bytes :=
  (lookupK st.last_known_content source).getD []

/-- Accumulator of the destination loop of sync_file. -/
structure SyncAcc where
  fs : Fsys
  guard : List (Path × Nat)
  synced : List Path
  desynced : List Path
  effects : List Effect
deriving DecidableEq

/-- The body of the destination loop of sync_file: an existing
destination is read (unwrap_or_default turns a failing read into empty
bytes) and compared with the old snapshot; it is overwritten when equal
to the old snapshot or when the old snapshot is empty, and recorded as
desynced otherwise; a missing destination gets parent directories, the
new content and a recency-guard entry; write failures are logged. -/
def syncStep (old new : Bytes) (now : Nat) (acc : SyncAcc) (d : Path) : SyncAcc :=
  match lookupK acc.fs.files d with
  | some _ =>
    let c := (fsRead acc.fs d).getD []
    if c = old ∨ old = [] then
      if d ∈ acc.fs.writeFail then
        { acc with effects := acc.effects ++ [Effect.errWriteFail d] }
      else
        { acc with fs := fsWrite acc.fs d new,
                   guard := insertK acc.guard d now,
                   synced := acc.synced ++ [d],
                   effects := acc.effects ++ [Effect.wroteFile d new] }
    else
      { acc with desynced := acc.desynced ++ [d] }
  | none =>
    if d ∈ acc.fs.writeFail then
      { acc with effects := acc.effects ++ [Effect.mkdirParents d, Effect.errWriteFail d] }
    else
      { acc with fs := fsWrite acc.fs d new,
                 guard := insertK acc.guard d now,
                 synced := acc.synced ++ [d],
                 effects := acc.effects ++ [Effect.mkdirParents d, Effect.wroteFile d new] }

/-- The destination loop of sync_file. -/
def processDests (old new : Bytes) (now : Nat) (acc : SyncAcc) : List Path → SyncAcc
  | [] => acc
  | d :: rest => processDests old new now (syncStep old new now acc d) rest

/-- The outcome of one sync_file call. -/
structure SyncResult where
  st : Watcher
  fs : Fsys
  effects : List Effect
  synced : List Path
  desynced : List Path
deriving DecidableEq

/-- FileWatcher::sync_file.  Returns none when reading the source fails
(the question-mark operator propagating the error before any state is
touched); otherwise updates the snapshot cache unconditionally, runs
the destination loop, and emits one summary when anything was synced or
skipped. -/
def sync_file (st : Watcher) (fs : Fsys) (now : Nat) (source : Path) :
    Option SyncResult :=
  match lookupK st.mappings source with
  | none => some ⟨st, fs, [], [], []⟩
  | some dests =>
    let old := oldContent st source
    match fsRead fs source with
    | none => none
    | some new =>
      let acc := processDests old new now ⟨fs, st.recently_synced, [], [], []⟩ dests
      let st' : Watcher :=
        { st with last_known_content := insertK st.last_known_content source new,
                  recently_synced := acc.guard }
      let effs :=
        if acc.synced = [] ∧ acc.desynced = [] then acc.effects
        else acc.effects ++ [Effect.syncSummary source acc.synced acc.desynced]
      some ⟨st', acc.fs, effs, acc.synced, acc.desynced⟩

/-- The outcome of one handle_event call. -/
structure HRes where
  st : Watcher
  fs : Fsys
  effects : List Effect
  errored : Bool
deriving DecidableEq

/-- The per-path loop of handle_event.  For remove events a tracked
source gets one source-deleted warning, its mapping entry is removed
and saved, and the reverse entries of its destinations are dropped; for
create and modify events a tracked source is propagated (a failing
propagation aborts the loop with an error), and a destination that is
not a tracked source gets a desync warning unless its recency-guard
entry is younger than two seconds. -/
def processPaths (now : Nat) (kind : EventKind) (st : Watcher) (fs : Fsys)
    (effs : List Effect) : List Path → HRes
  | [] => ⟨st, fs, effs, false⟩
  | p :: rest =>
    if kind = EventKind.remove then
      match lookupK st.mappings p with
      | some dests =>
        let m' := eraseK st.mappings p
        let st' : Watcher :=
          { st with mappings := m',
                    reverse_mappings :=
                      dests.foldl (fun r d => eraseK r d) st.reverse_mappings }
        processPaths now kind st' fs
          (effs ++ [Effect.sourceDeletedWarn p dests, Effect.saveConfig m']) rest
      | none => processPaths now kind st fs effs rest
    else
      if (lookupK st.mappings p).isSome then
        match sync_file st fs now p with
        | none => ⟨st, fs, effs, true⟩
        | some r => processPaths now kind r.st r.fs (effs ++ r.effects) rest
      else
        match lookupK st.reverse_mappings p with
        | some source =>
          match lookupK st.recently_synced p with
          | some t =>
            if now - t < 2 then processPaths now kind st fs effs rest
            else processPaths now kind st fs
              (effs ++ [Effect.desyncWarn p source]) rest
          | none =>
            processPaths now kind st fs (effs ++ [Effect.desyncWarn p source]) rest
        | none => processPaths now kind st fs effs rest

/-- FileWatcher::handle_event.  Events that are not Create, Modify or
Remove return at once; otherwise the mapping is reloaded (cfg is what
Config::load returns), the reverse index rebuilt, recency-guard entries
older than five seconds purged, and each path processed in turn. -/
def handle_event (cfg : Mapping) (st : Watcher) (fs : Fsys) (now : Nat)
    (ev : WEvent) : HRes :=
  if ev.kind = EventKind.create ∨ ev.kind = EventKind.modify ∨
      ev.kind = EventKind.remove then
    let st1 : Watcher :=
      { mappings := cfg,
        reverse_mappings := buildReverse cfg,
        last_known_content := st.last_known_content,
        recently_synced := st.recently_synced.filter (fun e => now - e.2 < 5) }
    processPaths now ev.kind st1 fs [Effect.reloadConfig] ev.paths
  else ⟨st, fs, [], false⟩

/-- Number of bindings of a key in an association list. -/
def keyCount {α : Type} (l : List (Path × α)) (k : Path) : Nat :=
  (l.filter (fun e => e.1 = k)).length

/-- Number of occurrences of an effect in a trace. -/
def countEff (l : List Effect) (e : Effect) : Nat :=
  (l.filter (fun x => x = e)).length

/-! Concrete states used by witnesses: one tracked source s with one
destination d, in various snapshot and filesystem configurations. -/

/-- Witness state: snapshot of s is the nonempty [3]. -/
def w1st : Watcher := ⟨[("s", ["d"])], [], [("s", [3])], []⟩

/-- Witness filesystem: s holds [1], d holds the drifted [2]. -/
def w1fs : Fsys := ⟨[("s", [1]), ("d", [2])], [], []⟩

/-- The result of propagating s in the w1 configuration. -/
def w1r : SyncResult := (sync_file w1st w1fs 0 "s").getD ⟨w1st, w1fs, [], [], []⟩

/-- Witness state for C3: snapshot of s is the nonempty [3]. -/
def w3st : Watcher := ⟨[("s", ["d"])], [], [("s", [3])], []⟩

/-- Witness filesystem for C3: d holds [7] but its read fails. -/
def w3fs : Fsys := ⟨[("s", [5]), ("d", [7])], ["d"], []⟩

/-- The result of propagating s in the w3 configuration. -/
def w3r : SyncResult := (sync_file w3st w3fs 0 "s").getD ⟨w3st, w3fs, [], [], []⟩

/-- Witness state for C7: no snapshot for s yet. -/
def w7st : Watcher := ⟨[("s", ["d"])], [], [], []⟩

/-- Witness filesystem for C7: s holds [4], d does not exist. -/
def w7fs : Fsys := ⟨[("s", [4])], [], []⟩

/-- The result of propagating s in the w7 configuration. -/
def w7r : SyncResult := (sync_file w7st w7fs 5 "s").getD ⟨w7st, w7fs, [], [], []⟩

/-- Witness state for C8: s is tracked but has no snapshot entry. -/
def w8st : Watcher := ⟨[("s", ["d"])], [], [], []⟩

/-- Witness filesystem for C8: d exists with content [9] and its read
fails; s holds [6]. -/
def w8fs : Fsys := ⟨[("s", [6]), ("d", [9])], ["d"], []⟩

/-- The result of propagating s in the w8 configuration. -/
def w8r : SyncResult := (sync_file w8st w8fs 2 "s").getD ⟨w8st, w8fs, [], [], []⟩

/-- Witness state for C4: two destinations, snapshot [1]. -/
def w4st : Watcher := ⟨[("s", ["d", "e"])], [], [("s", [1])], []⟩

/-- Witness filesystem for C4: d tracked faithfully, e drifted. -/
def w4fs : Fsys := ⟨[("s", [9]), ("d", [1]), ("e", [5])], [], []⟩

/-- First propagation of s in the w4 configuration. -/
def w4r1 : SyncResult := (sync_file w4st w4fs 0 "s").getD ⟨w4st, w4fs, [], [], []⟩

/-- Second propagation of s, with no intervening change. -/
def w4r2 : SyncResult :=
  (sync_file w4r1.st w4r1.fs 1 "s").getD ⟨w4r1.st, w4r1.fs, [], [], []⟩

/-- Witness state for C2: s is a tracked source. -/
def w2st : Watcher := ⟨[("s", ["d"])], [], [], []⟩

/-- Witness filesystem for C2: s is absent, so reading it fails. -/
def w2fs : Fsys := ⟨[], [], []⟩

/-- Witness state for C10: a nonempty in-memory state. -/
def w10st : Watcher :=
  ⟨[("old", ["x"])], [("x", "old")], [("old", [1])], [("x", 2)]⟩

/-- Witness filesystem for C10. -/
def w10fs : Fsys := ⟨[("a", [1])], [], []⟩

/-- Witness state for C6: destination d was self-written at instant 9. -/
def w6st : Watcher := ⟨[], [], [], [("d", 9)]⟩

/-- Witness filesystem for C6. -/
def w6fs : Fsys := ⟨[("s", [1]), ("d", [1])], [], []⟩

/-- Witness mapping for C6: s owns d. -/
def w6cfg : Mapping := [("s", ["d"])]

/-- Witness mapping for C5: s owns d. -/
def w5cfg : Mapping := [("s", ["d"])]

/-- Witness state for C5: stale in-memory state from before reload. -/
def w5st : Watcher := ⟨[("x", ["y"])], [("y", "x")], [], []⟩

/-- Witness filesystem for C5: the destination d holds [3]. -/
def w5fs : Fsys := ⟨[("d", [3])], [], []⟩

/-- The outcome of the remove event on s in the w5 configuration. -/
def w5r : HRes := handle_event w5cfg w5st w5fs 7 ⟨EventKind.remove, ["s"]⟩

/-! Association-list lemmas. -/

theorem lookupK_cons_self {α : Type} (a : Path) (w : α) (t : List (Path × α)) :
    lookupK ((a, w) :: t) a = some w := by
  simp [lookupK]

theorem lookupK_cons_ne {α : Type} {a k : Path} (w : α) (t : List (Path × α))
    (h : a ≠ k) : lookupK ((a, w) :: t) k = lookupK t k := by
  simp [lookupK, h]

theorem lookupK_insertK_self {α : Type} (l : List (Path × α)) (k : Path) (v : α) :
    lookupK (insertK l k v) k = some v := by
  induction l with
  | nil => simp [insertK, lookupK]
  | cons e t ih =>
    obtain ⟨a, w⟩ := e
    by_cases h : a = k
    · simp [insertK, h, lookupK]
    · simp [insertK, h, lookupK, ih]

theorem lookupK_insertK_ne {α : Type} (l : List (Path × α)) (k k' : Path) (v : α)
    (h : k ≠ k') : lookupK (insertK l k v) k' = lookupK l k' := by
  induction l with
  | nil => simp [insertK, lookupK, h]
  | cons e t ih =>
    obtain ⟨a, w⟩ := e
    by_cases ha : a = k
    · subst ha
      simp [insertK, lookupK, h]
    · simp only [insertK, if_neg ha]
      by_cases ha' : a = k'
      · simp [lookupK, ha']
      · simp [lookupK, ha', ih]

theorem insertK_lookup_self {α : Type} (l : List (Path × α)) (k : Path) (v : α)
    (h : lookupK l k = some v) : insertK l k v = l := by
  induction l with
  | nil => simp [lookupK] at h
  | cons e t ih =>
    obtain ⟨a, w⟩ := e
    by_cases ha : a = k
    · subst ha
      rw [lookupK_cons_self] at h
      injection h with h'
      subst h'
      simp [insertK]
    · simp only [lookupK, if_neg ha] at h
      simp [insertK, ha, ih h]

theorem lookupK_eraseK_self {α : Type} (l : List (Path × α)) (k : Path) :
    lookupK (eraseK l k) k = none := by
  induction l with
  | nil => simp [eraseK, lookupK]
  | cons e t ih =>
    obtain ⟨a, w⟩ := e
    by_cases ha : a = k
    · simp [eraseK, ha, ih]
    · simp [eraseK, ha, lookupK, ih]

theorem lookupK_eraseK_ne {α : Type} (l : List (Path × α)) (k k' : Path)
    (h : k ≠ k') : lookupK (eraseK l k) k' = lookupK l k' := by
  induction l with
  | nil => simp [eraseK]
  | cons e t ih =>
    obtain ⟨a, w⟩ := e
    by_cases ha : a = k
    · subst ha
      simp [eraseK, lookupK, if_neg h, ih]
    · simp [eraseK, ha, lookupK, ih]

theorem lookupK_mem {α : Type} {l : List (Path × α)} {k : Path} {v : α}
    (h : lookupK l k = some v) : (k, v) ∈ l := by
  induction l with
  | nil => simp [lookupK] at h
  | cons e t ih =>
    obtain ⟨a, w⟩ := e
    by_cases ha : a = k
    · subst ha
      rw [lookupK_cons_self] at h
      injection h with h'
      subst h'
      simp
    · rw [lookupK_cons_ne _ _ ha] at h
      exact List.mem_cons_of_mem _ (ih h)

theorem lookupK_filter {α : Type} {l : List (Path × α)} {k : Path} {v : α}
    (f : Path × α → Bool) (h : lookupK l k = some v) (hf : f (k, v) = true) :
    lookupK (l.filter f) k = some v := by
  induction l with
  | nil => simp [lookupK] at h
  | cons e t ih =>
    obtain ⟨a, w⟩ := e
    by_cases ha : a = k
    · subst ha
      rw [lookupK_cons_self] at h
      injection h with h'
      subst h'
      simp [List.filter, hf, lookupK]
    · rw [lookupK_cons_ne _ _ ha] at h
      by_cases hfa : f (a, w) = true
      · simp [List.filter, hfa, lookupK, ha, ih h]
      · simp only [List.filter, Bool.not_eq_true] at hfa ⊢
        rw [hfa]
        exact ih h

theorem lookupK_filter_mem {α : Type} {l : List (Path × α)} {k : Path} {v : α}
    {f : Path × α → Bool} (h : lookupK (l.filter f) k = some v) : (k, v) ∈ l :=
  List.mem_of_mem_filter (lookupK_mem h)

theorem lookupK_filter_none {α : Type} {l : List (Path × α)} {k : Path}
    (f : Path × α → Bool) (h : lookupK l k = none) :
    lookupK (l.filter f) k = none := by
  induction l with
  | nil => simp [lookupK]
  | cons e t ih =>
    obtain ⟨a, w⟩ := e
    by_cases ha : a = k
    · subst ha
      rw [lookupK_cons_self] at h
      exact absurd h (by simp)
    · rw [lookupK_cons_ne _ _ ha] at h
      by_cases hfa : f (a, w) = true
      · simp [List.filter, hfa, lookupK, ha, ih h]
      · simp only [List.filter, Bool.not_eq_true] at hfa ⊢
        rw [hfa]
        exact ih h

/-! Lemmas about one iteration of the destination loop. -/

theorem syncStep_readFail (o n : Bytes) (t : Nat) (acc : SyncAcc) (d : Path) :
    (syncStep o n t acc d).fs.readFail = acc.fs.readFail := by
  simp only [syncStep]
  split
  · split_ifs <;> simp [fsWrite]
  · split_ifs <;> simp [fsWrite]

theorem syncStep_writeFail (o n : Bytes) (t : Nat) (acc : SyncAcc) (d : Path) :
    (syncStep o n t acc d).fs.writeFail = acc.fs.writeFail := by
  simp only [syncStep]
  split
  · split_ifs <;> simp [fsWrite]
  · split_ifs <;> simp [fsWrite]

theorem syncStep_files_ne (o n : Bytes) (t : Nat) (acc : SyncAcc) {d p : Path}
    (h : d ≠ p) :
    lookupK (syncStep o n t acc d).fs.files p = lookupK acc.fs.files p := by
  simp only [syncStep]
  split
  · split_ifs <;> simp [fsWrite, lookupK_insertK_ne _ _ _ _ h]
  · split_ifs <;> simp [fsWrite, lookupK_insertK_ne _ _ _ _ h]

theorem syncStep_guard_ne (o n : Bytes) (t : Nat) (acc : SyncAcc) {d p : Path}
    (h : d ≠ p) :
    lookupK (syncStep o n t acc d).guard p = lookupK acc.guard p := by
  simp only [syncStep]
  split
  · split_ifs <;> simp [lookupK_insertK_ne _ _ _ _ h]
  · split_ifs <;> simp [lookupK_insertK_ne _ _ _ _ h]

theorem syncStep_extends (o n : Bytes) (t : Nat) (acc : SyncAcc) (d : Path) :
    ∃ ef sy dy,
      (syncStep o n t acc d).effects = acc.effects ++ ef ∧
      (syncStep o n t acc d).synced = acc.synced ++ sy ∧
      (syncStep o n t acc d).desynced = acc.desynced ++ dy := by
  simp only [syncStep]
  split
  · split_ifs
    · exact ⟨_, [], [], rfl, by simp, by simp⟩
    · exact ⟨_, [d], [], rfl, rfl, by simp⟩
    · exact ⟨[], [], [d], by simp, by simp, rfl⟩
  · split_ifs
    · exact ⟨_, [], [], rfl, by simp, by simp⟩
    · exact ⟨_, [d], [], rfl, rfl, by simp⟩

theorem processDests_readFail (o n : Bytes) (t : Nat) :
    ∀ (l : List Path) (acc : SyncAcc),
      (processDests o n t acc l).fs.readFail = acc.fs.readFail
  | [], _ => rfl
  | d :: rest, acc => by
    rw [processDests, processDests_readFail o n t rest, syncStep_readFail]

theorem processDests_writeFail (o n : Bytes) (t : Nat) :
    ∀ (l : List Path) (acc : SyncAcc),
      (processDests o n t acc l).fs.writeFail = acc.fs.writeFail
  | [], _ => rfl
  | d :: rest, acc => by
    rw [processDests, processDests_writeFail o n t rest, syncStep_writeFail]

theorem processDests_extends (o n : Bytes) (t : Nat) :
    ∀ (l : List Path) (acc : SyncAcc),
      ∃ ef sy dy,
        (processDests o n t acc l).effects = acc.effects ++ ef ∧
        (processDests o n t acc l).synced = acc.synced ++ sy ∧
        (processDests o n t acc l).desynced = acc.desynced ++ dy
  | [], acc => ⟨[], [], [], by simp [processDests], by simp [processDests], by simp [processDests]⟩
  | d :: rest, acc => by
    rw [processDests]
    obtain ⟨e1, s1, d1, he1, hs1, hd1⟩ := syncStep_extends o n t acc d
    obtain ⟨e2, s2, d2, he2, hs2, hd2⟩ :=
      processDests_extends o n t rest (syncStep o n t acc d)
    exact ⟨e1 ++ e2, s1 ++ s2, d1 ++ d2,
      by rw [he2, he1, List.append_assoc],
      by rw [hs2, hs1, List.append_assoc],
      by rw [hd2, hd1, List.append_assoc]⟩

theorem syncStep_effects_mono {x : Effect} {acc : SyncAcc} (o n : Bytes) (t : Nat)
    (d : Path) (h : x ∈ acc.effects) : x ∈ (syncStep o n t acc d).effects := by
  obtain ⟨ef, _, _, he, _, _⟩ := syncStep_extends o n t acc d
  rw [he]
  exact List.mem_append_left _ h

theorem syncStep_synced_mono {x : Path} {acc : SyncAcc} (o n : Bytes) (t : Nat)
    (d : Path) (h : x ∈ acc.synced) : x ∈ (syncStep o n t acc d).synced := by
  obtain ⟨_, sy, _, _, hs, _⟩ := syncStep_extends o n t acc d
  rw [hs]
  exact List.mem_append_left _ h

theorem syncStep_desynced_mono {x : Path} {acc : SyncAcc} (o n : Bytes) (t : Nat)
    (d : Path) (h : x ∈ acc.desynced) : x ∈ (syncStep o n t acc d).desynced := by
  obtain ⟨_, _, dy, _, _, hd⟩ := syncStep_extends o n t acc d
  rw [hd]
  exact List.mem_append_left _ h

theorem processDests_effects_mono {x : Effect} (o n : Bytes) (t : Nat) :
    ∀ (l : List Path) (acc : SyncAcc), x ∈ acc.effects →
      x ∈ (processDests o n t acc l).effects := by
  intro l acc h
  obtain ⟨ef, _, _, he, _, _⟩ := processDests_extends o n t l acc
  rw [he]
  exact List.mem_append_left _ h

theorem processDests_synced_mono {x : Path} (o n : Bytes) (t : Nat) :
    ∀ (l : List Path) (acc : SyncAcc), x ∈ acc.synced →
      x ∈ (processDests o n t acc l).synced := by
  intro l acc h
  obtain ⟨_, sy, _, _, hs, _⟩ := processDests_extends o n t l acc
  rw [hs]
  exact List.mem_append_left _ h

theorem processDests_desynced_mono {x : Path} (o n : Bytes) (t : Nat) :
    ∀ (l : List Path) (acc : SyncAcc), x ∈ acc.desynced →
      x ∈ (processDests o n t acc l).desynced := by
  intro l acc h
  obtain ⟨_, _, dy, _, _, hd⟩ := processDests_extends o n t l acc
  rw [hd]
  exact List.mem_append_left _ h

/-- An existing destination whose read result differs from a nonempty
old snapshot is only recorded as desynced; nothing else changes. -/
theorem syncStep_desync_self {acc : SyncAcc} {d : Path} {c o : Bytes} (n : Bytes)
    (t : Nat) (hl : lookupK acc.fs.files d = some c)
    (hv : (fsRead acc.fs d).getD [] ≠ o) (ho : o ≠ []) :
    syncStep o n t acc d = { acc with desynced := acc.desynced ++ [d] } := by
  simp only [syncStep, hl]
  rw [if_neg (not_or.mpr ⟨hv, ho⟩)]

/-- A missing destination with a succeeding write is created. -/
theorem syncStep_create_self {acc : SyncAcc} {d : Path} (o n : Bytes) (t : Nat)
    (hl : lookupK acc.fs.files d = none) (hw : d ∉ acc.fs.writeFail) :
    syncStep o n t acc d =
      { acc with fs := fsWrite acc.fs d n,
                 guard := insertK acc.guard d t,
                 synced := acc.synced ++ [d],
                 effects := acc.effects ++
                   [Effect.mkdirParents d, Effect.wroteFile d n] } := by
  simp only [syncStep, hl]
  rw [if_neg hw]

/-- An existing in-sync destination with a succeeding write is
overwritten with the new content. -/
theorem syncStep_insync_self {acc : SyncAcc} {d : Path} {c o : Bytes} (n : Bytes)
    (t : Nat) (hl : lookupK acc.fs.files d = some c)
    (hv : (fsRead acc.fs d).getD [] = o ∨ o = []) (hw : d ∉ acc.fs.writeFail) :
    syncStep o n t acc d =
      { acc with fs := fsWrite acc.fs d n,
                 guard := insertK acc.guard d t,
                 synced := acc.synced ++ [d],
                 effects := acc.effects ++ [Effect.wroteFile d n] } := by
  simp only [syncStep, hl]
  rw [if_pos hv, if_neg hw]

/-- The read result the loop compares for a destination that holds
content c: c itself when readable, empty bytes when the read fails. -/
theorem readVal_ne {acc : SyncAcc} {d : Path} {c o : Bytes}
    (hl : lookupK acc.fs.files d = some c) (ho : o ≠ [])
    (hrc : d ∈ acc.fs.readFail ∨ c ≠ o) : (fsRead acc.fs d).getD [] ≠ o := by
  unfold fsRead
  by_cases hr : d ∈ acc.fs.readFail
  · rw [if_pos hr]
    exact fun h => ho h.symm
  · rw [if_neg hr, hl]
    rcases hrc with hr' | hcne
    · exact absurd hr' hr
    · exact hcne

/-- Core of the no-silent-overwrite rule: a destination that holds
content differing from a nonempty old snapshot (or whose read fails) is
never written by the loop, and every pass over it marks it desynced. -/
theorem processDests_keep_desynced (o n : Bytes) (t : Nat) (d : Path) (c : Bytes)
    (ho : o ≠ []) :
    ∀ (l : List Path) (acc : SyncAcc),
      lookupK acc.fs.files d = some c →
      (d ∈ acc.fs.readFail ∨ c ≠ o) →
      lookupK (processDests o n t acc l).fs.files d = some c ∧
      (∀ x, x ∈ acc.desynced → x ∈ (processDests o n t acc l).desynced) ∧
      (d ∈ l → d ∈ (processDests o n t acc l).desynced)
  | [], acc => fun hl _ => ⟨hl, fun _ hx => hx, by simp [processDests]⟩
  | e :: rest, acc => fun hl hrc => by
    rw [processDests]
    by_cases hed : e = d
    · subst hed
      have hstep := syncStep_desync_self n t hl (readVal_ne hl ho hrc) ho
      rw [hstep]
      have ih := processDests_keep_desynced o n t e c ho rest
        { acc with desynced := acc.desynced ++ [e] } hl hrc
      refine ⟨ih.1, fun x hx => ih.2.1 x (List.mem_append_left _ hx), fun _ => ?_⟩
      exact ih.2.1 e (List.mem_append_right _ (by simp))
    · have hl' : lookupK (syncStep o n t acc e).fs.files d = some c :=
        (syncStep_files_ne o n t acc hed).trans hl
      have hrc' : d ∈ (syncStep o n t acc e).fs.readFail ∨ c ≠ o := by
        rw [syncStep_readFail]
        exact hrc
      have ih := processDests_keep_desynced o n t d c ho rest
        (syncStep o n t acc e) hl' hrc'
      refine ⟨ih.1, fun x hx => ih.2.1 x (syncStep_desynced_mono o n t e hx),
        fun hdl => ?_⟩
      rcases List.mem_cons.mp hdl with h | h
      · exact absurd h.symm hed
      · exact ih.2.2 h

/-- Once a destination holds the new content, is recorded in the guard
at the current instant and is classified synced, every later iteration
keeps all three. -/
theorem processDests_keep_synced (o n : Bytes) (t : Nat) (d : Path) :
    ∀ (l : List Path) (acc : SyncAcc),
      lookupK acc.fs.files d = some n →
      lookupK acc.guard d = some t →
      d ∈ acc.synced →
      lookupK (processDests o n t acc l).fs.files d = some n ∧
      lookupK (processDests o n t acc l).guard d = some t ∧
      d ∈ (processDests o n t acc l).synced
  | [], acc => fun hf hg hs => ⟨hf, hg, hs⟩
  | e :: rest, acc => fun hf hg hs => by
    rw [processDests]
    by_cases hed : e = d
    · subst hed
      have hstep : lookupK (syncStep o n t acc e).fs.files e = some n ∧
          lookupK (syncStep o n t acc e).guard e = some t ∧
          e ∈ (syncStep o n t acc e).synced := by
        simp only [syncStep, hf]
        split_ifs
        · exact ⟨hf, hg, hs⟩
        · exact ⟨by simp [fsWrite, lookupK_insertK_self],
            lookupK_insertK_self _ _ _, by simp [hs]⟩
        · exact ⟨hf, hg, hs⟩
      exact processDests_keep_synced o n t e rest _ hstep.1 hstep.2.1 hstep.2.2
    · exact processDests_keep_synced o n t d rest _
        ((syncStep_files_ne o n t acc hed).trans hf)
        ((syncStep_guard_ne o n t acc hed).trans hg)
        (syncStep_synced_mono o n t e hs)

/-- A path that already holds the new content keeps it through the
loop: the loop writes nothing but the new content. -/
theorem processDests_keep_new (o n : Bytes) (t : Nat) (p : Path) :
    ∀ (l : List Path) (acc : SyncAcc),
      lookupK acc.fs.files p = some n →
      lookupK (processDests o n t acc l).fs.files p = some n
  | [], _ => fun hf => hf
  | e :: rest, acc => fun hf => by
    rw [processDests]
    by_cases hed : e = p
    · subst hed
      have hstep : lookupK (syncStep o n t acc e).fs.files e = some n := by
        simp only [syncStep, hf]
        split_ifs
        · exact hf
        · simp [fsWrite, lookupK_insertK_self]
        · exact hf
      exact processDests_keep_new o n t e rest _ hstep
    · exact processDests_keep_new o n t p rest _
        ((syncStep_files_ne o n t acc hed).trans hf)

/-- A path untouched by the loop (not a destination) keeps its entry. -/
theorem processDests_files_not_mem (o n : Bytes) (t : Nat) (p : Path) :
    ∀ (l : List Path) (acc : SyncAcc), p ∉ l →
      lookupK (processDests o n t acc l).fs.files p = lookupK acc.fs.files p
  | [], _ => fun _ => rfl
  | e :: rest, acc => fun hp => by
    rw [processDests]
    have hep : e ≠ p := fun h => hp (h ▸ List.mem_cons_self e rest)
    rw [processDests_files_not_mem o n t p rest _ (fun h => hp (List.mem_cons_of_mem _ h))]
    exact syncStep_files_ne o n t acc hep

/-- After a failure-free pass, every destination exists and either
holds the new content or has been classified desynced (preservation
part: the property survives any further iteration). -/
theorem syncStep_keep_covered {acc : SyncAcc} {d : Path} (o n : Bytes) (t : Nat)
    (e : Path)
    (h : ∃ c, lookupK acc.fs.files d = some c ∧ (c = n ∨ d ∈ acc.desynced)) :
    ∃ c, lookupK (syncStep o n t acc e).fs.files d = some c ∧
      (c = n ∨ d ∈ (syncStep o n t acc e).desynced) := by
  obtain ⟨c, hl, hc⟩ := h
  by_cases hed : e = d
  · subst hed
    simp only [syncStep, hl]
    split_ifs
    · exact ⟨c, hl, hc⟩
    · exact ⟨n, by simp [fsWrite, lookupK_insertK_self], Or.inl rfl⟩
    · refine ⟨c, hl, ?_⟩
      rcases hc with h | h
      · exact Or.inl h
      · exact Or.inr (by simp [h])
  · exact ⟨c, (syncStep_files_ne o n t acc hed).trans hl,
      hc.imp id (syncStep_desynced_mono o n t e)⟩

/-- Establishment part of the coverage property: a failure-free
iteration over a destination leaves it covered. -/
theorem syncStep_est_covered {acc : SyncAcc} (o n : Bytes) (t : Nat) (d : Path)
    (hr : acc.fs.readFail = []) (hw : acc.fs.writeFail = []) :
    ∃ c, lookupK (syncStep o n t acc d).fs.files d = some c ∧
      (c = n ∨ d ∈ (syncStep o n t acc d).desynced) := by
  have hwd : d ∉ acc.fs.writeFail := by rw [hw]; simp
  cases hl : lookupK acc.fs.files d with
  | none =>
    rw [syncStep_create_self o n t hl hwd]
    exact ⟨n, by simp [fsWrite, lookupK_insertK_self], Or.inl rfl⟩
  | some c =>
    simp only [syncStep, hl]
    split_ifs with h1
    · exact ⟨n, by simp [fsWrite, lookupK_insertK_self], Or.inl rfl⟩
    · exact ⟨c, hl, Or.inr (by simp)⟩

/-- Coverage of every destination after a failure-free pass. -/
theorem processDests_covered (o n : Bytes) (t : Nat) (d : Path) :
    ∀ (l : List Path) (acc : SyncAcc),
      acc.fs.readFail = [] → acc.fs.writeFail = [] →
      ((∃ c, lookupK acc.fs.files d = some c ∧ (c = n ∨ d ∈ acc.desynced)) ∨ d ∈ l) →
      ∃ c, lookupK (processDests o n t acc l).fs.files d = some c ∧
        (c = n ∨ d ∈ (processDests o n t acc l).desynced)
  | [], acc => fun _ _ h => by
    rcases h with h | h
    · exact h
    · simp at h
  | e :: rest, acc => fun hr hw h => by
    rw [processDests]
    have hr' : (syncStep o n t acc e).fs.readFail = [] := by
      rw [syncStep_readFail]; exact hr
    have hw' : (syncStep o n t acc e).fs.writeFail = [] := by
      rw [syncStep_writeFail]; exact hw
    rcases h with h | h
    · exact processDests_covered o n t d rest _ hr' hw'
        (Or.inl (syncStep_keep_covered o n t e h))
    · rcases List.mem_cons.mp h with hed | hdr
      · subst hed
        exact processDests_covered o n t d rest _ hr' hw'
          (Or.inl (syncStep_est_covered o n t d hr hw))
      · exact processDests_covered o n t d rest _ hr' hw' (Or.inr hdr)

/-- Second-pass stability: when the old snapshot equals the nonempty
new content and every destination already exists holding either the
new content or content it was already reported desynced for, the loop
changes no file and re-classifies as desynced only already-desynced
destinations. -/
theorem processDests_stable (n : Bytes) (t : Nat) (D1 : List Path) (hn : n ≠ []) :
    ∀ (l : List Path) (acc : SyncAcc),
      acc.fs.readFail = [] → acc.fs.writeFail = [] →
      (∀ d, d ∈ l → ∃ c, lookupK acc.fs.files d = some c ∧ (c = n ∨ d ∈ D1)) →
      (processDests n n t acc l).fs = acc.fs ∧
      (∀ x, x ∈ (processDests n n t acc l).desynced →
        x ∈ acc.desynced ∨ x ∈ D1)
  | [], acc => fun _ _ _ => ⟨rfl, fun x hx => Or.inl hx⟩
  | e :: rest, acc => fun hr hw hcov => by
    rw [processDests]
    obtain ⟨c, hl, hc⟩ := hcov e (List.mem_cons_self e rest)
    have hwd : e ∉ acc.fs.writeFail := by rw [hw]; simp
    have hread : (fsRead acc.fs e).getD [] = c := by
      unfold fsRead
      rw [if_neg (by rw [hr]; simp), hl]
      rfl
    by_cases hcn : c = n
    · have hln : lookupK acc.fs.files e = some n := hcn ▸ hl
      have hstep := syncStep_insync_self n t hl (Or.inl (hread.trans hcn)) hwd
      have hfs : fsWrite acc.fs e n = acc.fs := by
        unfold fsWrite
        rw [insertK_lookup_self _ _ _ hln]
      rw [hstep]
      have ih := processDests_stable n t D1 hn rest
        { acc with fs := fsWrite acc.fs e n,
                   guard := insertK acc.guard e t,
                   synced := acc.synced ++ [e],
                   effects := acc.effects ++ [Effect.wroteFile e n] }
        (by simp [hfs, hr]) (by simp [hfs, hw])
        (by
          intro d hd
          simp only [hfs]
          exact hcov d (List.mem_cons_of_mem _ hd))
      refine ⟨ih.1.trans (by simp [hfs]), fun x hx => ?_⟩
      have := ih.2 x hx
      simpa using this
    · have hv : (fsRead acc.fs e).getD [] ≠ n := by rw [hread]; exact hcn
      have hstep := syncStep_desync_self n t hl hv hn
      rw [hstep]
      have ih := processDests_stable n t D1 hn rest
        { acc with desynced := acc.desynced ++ [e] } hr hw
        (fun d hd => hcov d (List.mem_cons_of_mem _ hd))
      refine ⟨ih.1, fun x hx => ?_⟩
      rcases ih.2 x hx with h | h
      · rcases List.mem_append.mp h with h' | h'
        · exact Or.inl h'
        · have hxe : x = e := by simpa using h'
          subst hxe
          rcases hc with h'' | h''
          · exact absurd h'' hcn
          · exact Or.inr h''
      · exact Or.inr h

/-- Unfolding of a successful sync_file call in terms of its
destination loop. -/
theorem sync_file_spec {st : Watcher} {fs : Fsys} {now : Nat} {source : Path}
    {dests : List Path} {new : Bytes} {r : SyncResult}
    (hm : lookupK st.mappings source = some dests)
    (hr : fsRead fs source = some new)
    (h : sync_file st fs now source = some r) :
    r.fs = (processDests (oldContent st source) new now
        ⟨fs, st.recently_synced, [], [], []⟩ dests).fs ∧
    r.synced = (processDests (oldContent st source) new now
        ⟨fs, st.recently_synced, [], [], []⟩ dests).synced ∧
    r.desynced = (processDests (oldContent st source) new now
        ⟨fs, st.recently_synced, [], [], []⟩ dests).desynced ∧
    r.st.mappings = st.mappings ∧
    r.st.last_known_content = insertK st.last_known_content source new ∧
    r.st.recently_synced = (processDests (oldContent st source) new now
        ⟨fs, st.recently_synced, [], [], []⟩ dests).guard ∧
    r.effects = (if (processDests (oldContent st source) new now
          ⟨fs, st.recently_synced, [], [], []⟩ dests).synced = [] ∧
        (processDests (oldContent st source) new now
          ⟨fs, st.recently_synced, [], [], []⟩ dests).desynced = []
      then (processDests (oldContent st source) new now
          ⟨fs, st.recently_synced, [], [], []⟩ dests).effects
      else (processDests (oldContent st source) new now
          ⟨fs, st.recently_synced, [], [], []⟩ dests).effects ++
        [Effect.syncSummary source
          (processDests (oldContent st source) new now
            ⟨fs, st.recently_synced, [], [], []⟩ dests).synced
          (processDests (oldContent st source) new now
            ⟨fs, st.recently_synced, [], [], []⟩ dests).desynced]) := by
  simp only [sync_file, hm, hr] at h
  rw [Option.some_inj] at h
  subst h
  exact ⟨rfl, rfl, rfl, rfl, rfl, rfl, rfl⟩

/-! Claim C1. -/

/-- C1 counterexample: the claim as stated fails.  The tracked source
s has the empty pre-edit snapshot, the destination d existed with
content [2] which differs from that snapshot, yet after propagation d
holds the new source content [1]: it was overwritten, not left
unchanged and classified desynced-skip. -/
theorem overwrite_on_empty_snapshot_cex :
    ((sync_file ⟨[("s", ["d"])], [], [("s", [])], []⟩
        ⟨[("s", [1]), ("d", [2])], [], []⟩ 0 "s").map
      (fun r => lookupK r.fs.files "d")) = some (some [1]) ∧
    ([2] : Bytes) ≠ ([] : Bytes) := by
  decide

/-- C1 (amended): no silent overwrite holds whenever the pre-edit
snapshot is nonempty.  Every destination that existed before a
propagation and whose byte content differed from the source's nonempty
pre-edit snapshot keeps its content, is classified desynced-skip, and
is reported in the sync summary. -/
theorem no_silent_overwrite_nonempty_snapshot
    (st : Watcher) (fs : Fsys) (now : Nat) (s : Path) (dests : List Path)
    (d : Path) (c new : Bytes) (r : SyncResult)
    (hm : lookupK st.mappings s = some dests)
    (hd : d ∈ dests)
    (hc : lookupK fs.files d = some c)
    (ho : oldContent st s ≠ [])
    (hdiff : c ≠ oldContent st s)
    (hr : fsRead fs s = some new)
    (hsf : sync_file st fs now s = some r) :
    lookupK r.fs.files d = some c ∧ d ∈ r.desynced ∧
      Effect.syncSummary s r.synced r.desynced ∈ r.effects := by
  obtain ⟨hfs, hsy, hdy, _, _, _, heff⟩ := sync_file_spec hm hr hsf
  have key := processDests_keep_desynced (oldContent st s) new now d c ho dests
    ⟨fs, st.recently_synced, [], [], []⟩ hc (Or.inr hdiff)
  refine ⟨by rw [hfs]; exact key.1, by rw [hdy]; exact key.2.2 hd, ?_⟩
  rw [heff, hsy, hdy]
  have hne : (processDests (oldContent st s) new now
      ⟨fs, st.recently_synced, [], [], []⟩ dests).desynced ≠ [] :=
    List.ne_nil_of_mem (key.2.2 hd)
  rw [if_neg (fun hco => hne hco.2)]
  exact List.mem_append_right _ (by simp)

/-- C1 witness: the amended theorem applied to the w1 configuration,
where the snapshot [3] is nonempty and d drifted to [2]. -/
theorem no_silent_overwrite_nonempty_snapshot_witness :
    lookupK w1r.fs.files "d" = some [2] ∧ "d" ∈ w1r.desynced ∧
      Effect.syncSummary "s" w1r.synced w1r.desynced ∈ w1r.effects :=
  no_silent_overwrite_nonempty_snapshot w1st w1fs 0 "s" ["d"] "d" [2] [1] w1r
    (by decide) (by decide) (by decide) (by decide) (by decide) (by decide)
    (by decide)

/-! Claim C3. -/

/-- C3 counterexample: the claim as stated fails.  The destination d
exists, its read fails, and the pre-edit snapshot of s is empty; the
failing read is collapsed to empty bytes, compares equal under the
empty-snapshot rule, and d is overwritten with the new content [5]
instead of having its bytes left unchanged; no error is logged for the
failing read. -/
theorem unreadable_dest_overwritten_cex :
    ((sync_file ⟨[("s", ["d"])], [], [("s", [])], []⟩
        ⟨[("s", [5]), ("d", [7])], ["d"], []⟩ 0 "s").map
      (fun r => lookupK r.fs.files "d")) = some (some [5]) := by
  decide

/-- C3 (amended): when the pre-edit snapshot of the source is
nonempty, an existing destination whose read fails is read as empty
bytes, classified desynced-skip with its on-disk bytes left unchanged
(no crash), and reported through the sync summary; no dedicated
read-error log exists for it. -/
theorem unreadable_dest_skipped_nonempty_snapshot
    (st : Watcher) (fs : Fsys) (now : Nat) (s : Path) (dests : List Path)
    (d : Path) (c new : Bytes) (r : SyncResult)
    (hm : lookupK st.mappings s = some dests)
    (hd : d ∈ dests)
    (hc : lookupK fs.files d = some c)
    (hrf : d ∈ fs.readFail)
    (ho : oldContent st s ≠ [])
    (hr : fsRead fs s = some new)
    (hsf : sync_file st fs now s = some r) :
    lookupK r.fs.files d = some c ∧ d ∈ r.desynced ∧
      Effect.syncSummary s r.synced r.desynced ∈ r.effects := by
  obtain ⟨hfs, hsy, hdy, _, _, _, heff⟩ := sync_file_spec hm hr hsf
  have key := processDests_keep_desynced (oldContent st s) new now d c ho dests
    ⟨fs, st.recently_synced, [], [], []⟩ hc (Or.inl hrf)
  refine ⟨by rw [hfs]; exact key.1, by rw [hdy]; exact key.2.2 hd, ?_⟩
  rw [heff, hsy, hdy]
  have hne : (processDests (oldContent st s) new now
      ⟨fs, st.recently_synced, [], [], []⟩ dests).desynced ≠ [] :=
    List.ne_nil_of_mem (key.2.2 hd)
  rw [if_neg (fun hco => hne hco.2)]
  exact List.mem_append_right _ (by simp)

/-- C3 witness: the amended theorem applied to the w3 configuration,
where the snapshot [3] is nonempty and the read of d fails. -/
theorem unreadable_dest_skipped_nonempty_snapshot_witness :
    lookupK w3r.fs.files "d" = some [7] ∧ "d" ∈ w3r.desynced ∧
      Effect.syncSummary "s" w3r.synced w3r.desynced ∈ w3r.effects :=
  unreadable_dest_skipped_nonempty_snapshot w3st w3fs 0 "s" ["d"] "d" [7] [5]
    w3r (by decide) (by decide) (by decide) (by decide) (by decide) (by decide)
    (by decide)

/-! Claim C7. -/

/-- A destination that is missing and writable when the loop starts is
created with the new content, recorded in the guard at the current
instant, classified synced, and gets its parent directories. -/
theorem processDests_creates (o n : Bytes) (t : Nat) (d : Path) :
    ∀ (l : List Path) (acc : SyncAcc),
      lookupK acc.fs.files d = none →
      d ∉ acc.fs.writeFail →
      d ∈ l →
      lookupK (processDests o n t acc l).fs.files d = some n ∧
      lookupK (processDests o n t acc l).guard d = some t ∧
      d ∈ (processDests o n t acc l).synced ∧
      Effect.mkdirParents d ∈ (processDests o n t acc l).effects
  | [], _ => fun _ _ hdl => by simp at hdl
  | e :: rest, acc => fun hnone hw hdl => by
    rw [processDests]
    by_cases hed : e = d
    · subst hed
      rw [syncStep_create_self o n t hnone hw]
      have h1 : lookupK (fsWrite acc.fs e n).files e = some n := by
        simp [fsWrite, lookupK_insertK_self]
      have keep := processDests_keep_synced o n t e rest
        { acc with fs := fsWrite acc.fs e n,
                   guard := insertK acc.guard e t,
                   synced := acc.synced ++ [e],
                   effects := acc.effects ++
                     [Effect.mkdirParents e, Effect.wroteFile e n] }
        h1 (lookupK_insertK_self _ _ _) (by simp)
      refine ⟨keep.1, keep.2.1, keep.2.2, ?_⟩
      exact processDests_effects_mono o n t rest _
        (List.mem_append_right _ (by simp))
    · have hnone' : lookupK (syncStep o n t acc e).fs.files d = none :=
        (syncStep_files_ne o n t acc hed).trans hnone
      have hw' : d ∉ (syncStep o n t acc e).fs.writeFail := by
        rw [syncStep_writeFail]
        exact hw
      have hdl' : d ∈ rest := by
        rcases List.mem_cons.mp hdl with h | h
        · exact absurd h.symm hed
        · exact h
      exact processDests_creates o n t d rest _ hnone' hw' hdl'

/-- C7 (confirmed): a destination of a changed source that did not
exist before propagation, given a successful write, exists afterwards
with the newly read source content, has its parent directories created,
is recorded in the Recency Guard at the current instant, and is
classified synced. -/
theorem missing_dest_created
    (st : Watcher) (fs : Fsys) (now : Nat) (s : Path) (dests : List Path)
    (d : Path) (new : Bytes) (r : SyncResult)
    (hm : lookupK st.mappings s = some dests)
    (hd : d ∈ dests)
    (hnone : lookupK fs.files d = none)
    (hw : d ∉ fs.writeFail)
    (hr : fsRead fs s = some new)
    (hsf : sync_file st fs now s = some r) :
    lookupK r.fs.files d = some new ∧
    Effect.mkdirParents d ∈ r.effects ∧
    lookupK r.st.recently_synced d = some now ∧
    d ∈ r.synced := by
  obtain ⟨hfs, hsy, _, _, _, hg, heff⟩ := sync_file_spec hm hr hsf
  have key := processDests_creates (oldContent st s) new now d dests
    ⟨fs, st.recently_synced, [], [], []⟩ hnone hw hd
  refine ⟨by rw [hfs]; exact key.1, ?_, by rw [hg]; exact key.2.1,
    by rw [hsy]; exact key.2.2.1⟩
  rw [heff]
  split_ifs
  · exact key.2.2.2
  · exact List.mem_append_left _ key.2.2.2

/-- C7 witness: the claim theorem applied to the w7 configuration at
instant 5, where d is missing and the write succeeds. -/
theorem missing_dest_created_witness :
    lookupK w7r.fs.files "d" = some [4] ∧
    Effect.mkdirParents "d" ∈ w7r.effects ∧
    lookupK w7r.st.recently_synced "d" = some 5 ∧
    "d" ∈ w7r.synced :=
  missing_dest_created w7st w7fs 5 "s" ["d"] "d" [4] w7r (by decide)
    (by decide) (by decide) (by decide) (by decide) (by decide)

/-! Claim C8. -/

/-- With an empty old snapshot, every existing writable destination is
judged in sync, overwritten with the new content and classified
synced, regardless of its content or of a failing read. -/
theorem processDests_overwrites_empty (n : Bytes) (t : Nat) (d : Path) :
    ∀ (l : List Path) (acc : SyncAcc),
      (∃ c, lookupK acc.fs.files d = some c) →
      d ∉ acc.fs.writeFail →
      d ∈ l →
      lookupK (processDests [] n t acc l).fs.files d = some n ∧
      lookupK (processDests [] n t acc l).guard d = some t ∧
      d ∈ (processDests [] n t acc l).synced
  | [], _ => fun _ _ hdl => by simp at hdl
  | e :: rest, acc => fun hex hw hdl => by
    rw [processDests]
    by_cases hed : e = d
    · subst hed
      obtain ⟨c, hc⟩ := hex
      rw [syncStep_insync_self n t hc (Or.inr rfl) hw]
      have h1 : lookupK (fsWrite acc.fs e n).files e = some n := by
        simp [fsWrite, lookupK_insertK_self]
      exact processDests_keep_synced [] n t e rest
        { acc with fs := fsWrite acc.fs e n,
                   guard := insertK acc.guard e t,
                   synced := acc.synced ++ [e],
                   effects := acc.effects ++ [Effect.wroteFile e n] }
        h1 (lookupK_insertK_self _ _ _) (by simp)
    · obtain ⟨c, hc⟩ := hex
      have hc' : lookupK (syncStep [] n t acc e).fs.files d = some c :=
        (syncStep_files_ne [] n t acc hed).trans hc
      have hw' : d ∉ (syncStep [] n t acc e).fs.writeFail := by
        rw [syncStep_writeFail]
        exact hw
      have hdl' : d ∈ rest := by
        rcases List.mem_cons.mp hdl with h | h
        · exact absurd h.symm hed
        · exact h
      exact processDests_overwrites_empty n t d rest _ ⟨c, hc'⟩ hw' hdl'

/-- C8 (confirmed): an absent pre-change snapshot is represented as
the empty byte string, and under an absent or empty snapshot every
existing writable destination, whatever its content and even when its
read fails, is classified in sync and overwritten with the new source
content. -/
theorem empty_snapshot_collapse
    (st : Watcher) (fs : Fsys) (now : Nat) (s : Path) (dests : List Path)
    (d : Path) (c new : Bytes) (r : SyncResult)
    (hm : lookupK st.mappings s = some dests)
    (habs : lookupK st.last_known_content s = none ∨
      lookupK st.last_known_content s = some [])
    (hd : d ∈ dests)
    (hc : lookupK fs.files d = some c)
    (hw : d ∉ fs.writeFail)
    (hr : fsRead fs s = some new)
    (hsf : sync_file st fs now s = some r) :
    oldContent st s = [] ∧
    lookupK r.fs.files d = some new ∧ d ∈ r.synced := by
  have hold : oldContent st s = [] := by
    rcases habs with h | h <;> simp [oldContent, h]
  obtain ⟨hfs, hsy, _, _, _, _, _⟩ := sync_file_spec hm hr hsf
  rw [hold] at hfs hsy
  have key := processDests_overwrites_empty new now d dests
    ⟨fs, st.recently_synced, [], [], []⟩ ⟨c, hc⟩ hw hd
  exact ⟨hold, by rw [hfs]; exact key.1, by rw [hsy]; exact key.2.2⟩

/-- C8 witness: the claim theorem applied to the w8 configuration,
where the snapshot is absent and the read of d fails. -/
theorem empty_snapshot_collapse_witness :
    oldContent w8st "s" = [] ∧
    lookupK w8r.fs.files "d" = some [6] ∧ "d" ∈ w8r.synced :=
  empty_snapshot_collapse w8st w8fs 2 "s" ["d"] "d" [9] [6] w8r (by decide)
    (Or.inl (by decide)) (by decide) (by decide) (by decide) (by decide)
    (by decide)

/-! Claim C4. -/

/-- C4 counterexample: the claim as stated fails when the new source
content is empty.  First run: snapshot [1], destination d drifted to
[2], so d is desynced-skipped and keeps [2].  Second run, with no
intervening change: the snapshot is now the empty new content, the
empty-snapshot rule judges d in sync, and d is overwritten with [],
so the two runs leave different destination contents. -/
theorem propagation_not_idempotent_cex :
    ((sync_file ⟨[("s", ["d"])], [], [("s", [1])], []⟩
        ⟨[("s", []), ("d", [2])], [], []⟩ 0 "s").bind
      (fun r1 => (sync_file r1.st r1.fs 0 "s").map
        (fun r2 => (lookupK r1.fs.files "d", lookupK r2.fs.files "d")))) =
      some (some [2], some []) := by
  decide

/-- C4 (amended): idempotence of propagation holds in a failure-free
filesystem whenever the source's new content is nonempty.  Running
propagation twice with no intervening change leaves the filesystem
after the second run identical to the one after the first, and the
second run classifies as desynced-skip only destinations the first run
already classified so. -/
theorem propagation_idempotent_nonempty
    (st : Watcher) (fs : Fsys) (now1 now2 : Nat) (s : Path)
    (dests : List Path) (new : Bytes) (r1 r2 : SyncResult)
    (hrf : fs.readFail = []) (hwf : fs.writeFail = [])
    (hm : lookupK st.mappings s = some dests)
    (hs : lookupK fs.files s = some new)
    (hn : new ≠ [])
    (h1 : sync_file st fs now1 s = some r1)
    (h2 : sync_file r1.st r1.fs now2 s = some r2) :
    r2.fs = r1.fs ∧ r2.desynced ⊆ r1.desynced := by
  have hr1 : fsRead fs s = some new := by simp [fsRead, hrf, hs]
  obtain ⟨hfs1, _, hdy1, hm1, hlkc1, _, _⟩ := sync_file_spec hm hr1 h1
  have hP1rf : (processDests (oldContent st s) new now1
      ⟨fs, st.recently_synced, [], [], []⟩ dests).fs.readFail = [] := by
    rw [processDests_readFail]
    exact hrf
  have hP1wf : (processDests (oldContent st s) new now1
      ⟨fs, st.recently_synced, [], [], []⟩ dests).fs.writeFail = [] := by
    rw [processDests_writeFail]
    exact hwf
  have hsrc : lookupK (processDests (oldContent st s) new now1
      ⟨fs, st.recently_synced, [], [], []⟩ dests).fs.files s = some new :=
    processDests_keep_new (oldContent st s) new now1 s dests
      ⟨fs, st.recently_synced, [], [], []⟩ hs
  have hcov : ∀ d, d ∈ dests →
      ∃ c, lookupK (processDests (oldContent st s) new now1
          ⟨fs, st.recently_synced, [], [], []⟩ dests).fs.files d = some c ∧
        (c = new ∨ d ∈ (processDests (oldContent st s) new now1
          ⟨fs, st.recently_synced, [], [], []⟩ dests).desynced) :=
    fun d hd => processDests_covered (oldContent st s) new now1 d dests
      ⟨fs, st.recently_synced, [], [], []⟩ hrf hwf (Or.inr hd)
  have hm2 : lookupK r1.st.mappings s = some dests := by
    rw [hm1]
    exact hm
  have hold2 : oldContent r1.st s = new := by
    simp [oldContent, hlkc1, lookupK_insertK_self]
  have hr2 : fsRead r1.fs s = some new := by
    unfold fsRead
    rw [hfs1, hP1rf]
    simpa using hsrc
  obtain ⟨hfs2, _, hdy2, _, _, _, _⟩ := sync_file_spec hm2 hr2 h2
  rw [hold2] at hfs2 hdy2
  have stable := processDests_stable new now2
    (processDests (oldContent st s) new now1
      ⟨fs, st.recently_synced, [], [], []⟩ dests).desynced hn dests
    ⟨r1.fs, r1.st.recently_synced, [], [], []⟩
    (by rw [hfs1]; exact hP1rf)
    (by rw [hfs1]; exact hP1wf)
    (by
      intro d hd
      obtain ⟨c, hc, hcd⟩ := hcov d hd
      exact ⟨c, by rw [hfs1]; exact hc, hcd⟩)
  constructor
  · rw [hfs2, stable.1, hfs1]
  · intro x hx
    rw [hdy2] at hx
    rcases stable.2 x hx with h | h
    · simp at h
    · rw [hdy1]
      exact h

/-- C4 witness: the amended theorem applied to the w4 configuration,
where the new content [9] is nonempty and the filesystem is
failure-free: the second run changes nothing and re-skips only the
already-skipped destination e. -/
theorem propagation_idempotent_nonempty_witness :
    w4r2.fs = w4r1.fs ∧ w4r2.desynced ⊆ w4r1.desynced :=
  propagation_idempotent_nonempty w4st w4fs 0 1 "s" ["d", "e"] [9] w4r1 w4r2
    (by decide) (by decide) (by decide) (by decide) (by decide) (by decide)
    (by decide)

/-! Claim C2. -/

/-- C2 counterexample: the claim as stated fails.  The modify event
names two tracked sources s1 and s2; reading s1 fails (it is absent),
and s2 — readable, with a missing destination d2 that propagation
would create — is never processed: the handler stops with an error,
d2 stays absent, and no effect beyond the config reload is produced. -/
theorem batch_abort_cex :
    (handle_event [("s1", ["d1"]), ("s2", ["d2"])] ⟨[], [], [], []⟩
        ⟨[("s2", [1])], [], []⟩ 10 ⟨EventKind.modify, ["s1", "s2"]⟩).errored
      = true ∧
    lookupK (handle_event [("s1", ["d1"]), ("s2", ["d2"])] ⟨[], [], [], []⟩
        ⟨[("s2", [1])], [], []⟩ 10
        ⟨EventKind.modify, ["s1", "s2"]⟩).fs.files "d2" = none ∧
    (handle_event [("s1", ["d1"]), ("s2", ["d2"])] ⟨[], [], [], []⟩
        ⟨[("s2", [1])], [], []⟩ 10 ⟨EventKind.modify, ["s1", "s2"]⟩).effects
      = [Effect.reloadConfig] := by
  decide

/-- C2 (amended): when reading a changed source fails during
propagation, the per-path loop stops at that path with an error (which
the run loop reports), leaving state and filesystem as they were;
the remaining paths of the event batch are not processed (the result
does not depend on them), and only later events continue normally. -/
theorem source_read_failure_aborts_batch
    (now : Nat) (k : EventKind) (st : Watcher) (fs : Fsys)
    (effs : List Effect) (p : Path) (rest : List Path) (dests : List Path)
    (hk : k = EventKind.create ∨ k = EventKind.modify)
    (hm : lookupK st.mappings p = some dests)
    (hr : fsRead fs p = none) :
    processPaths now k st fs effs (p :: rest) = ⟨st, fs, effs, true⟩ := by
  have hknr : ¬k = EventKind.remove := by
    rcases hk with h | h <;> simp [h]
  have hsf : sync_file st fs now p = none := by
    simp [sync_file, hm, hr]
  simp [processPaths, if_neg hknr, hm, hsf]

/-- C2 witness: the amended theorem applied to a modify event naming
the unreadable tracked source s followed by another path x; the loop
stops immediately with the error flag set. -/
theorem source_read_failure_aborts_batch_witness :
    processPaths 0 EventKind.modify w2st w2fs [Effect.reloadConfig]
      ["s", "x"] = ⟨w2st, w2fs, [Effect.reloadConfig], true⟩ :=
  source_read_failure_aborts_batch 0 EventKind.modify w2st w2fs
    [Effect.reloadConfig] "s" ["x"] ["d"] (Or.inr rfl) (by decide) (by decide)

/-! Claim C10. -/

/-- C10 (confirmed): an event whose kind is not Create, Modify or
Remove is dropped at once: the in-memory state is untouched (no reload,
no reverse-index rebuild, no guard purge, no snapshot change), the
filesystem is untouched, no effect is produced and no error raised. -/
theorem other_event_kinds_noop
    (cfg : Mapping) (st : Watcher) (fs : Fsys) (now : Nat) (ev : WEvent)
    (h : ev.kind = EventKind.other) :
    handle_event cfg st fs now ev = ⟨st, fs, [], false⟩ := by
  simp [handle_event, h]

/-- C10 witness: the claim theorem applied to an event of kind other
touching a path that is tracked, against a nonempty state. -/
theorem other_event_kinds_noop_witness :
    handle_event [("a", ["b"])] w10st w10fs 3 ⟨EventKind.other, ["a"]⟩ =
      ⟨w10st, w10fs, [], false⟩ :=
  other_event_kinds_noop [("a", ["b"])] w10st w10fs 3
    ⟨EventKind.other, ["a"]⟩ rfl

/-! Claim C6. -/

/-- The unfolding of handle_event for the three handled kinds. -/
theorem handle_event_unfold (cfg : Mapping) (st : Watcher) (fs : Fsys)
    (now : Nat) (k : EventKind) (paths : List Path)
    (hk : k = EventKind.create ∨ k = EventKind.modify ∨ k = EventKind.remove) :
    handle_event cfg st fs now ⟨k, paths⟩ =
      processPaths now k
        ⟨cfg, buildReverse cfg, st.last_known_content,
          st.recently_synced.filter (fun e => now - e.2 < 5)⟩
        fs [Effect.reloadConfig] paths := by
  simp only [handle_event]
  rw [if_pos hk]

/-- C6 (confirmed): for a create or modify event on a destination path
p that is not itself a tracked source, with owner s in the reverse
index: if every guard entry for p is at least 2 seconds old (or there
is none), one desync warning naming p and s is emitted and no file is
written; if p has a guard entry younger than 2 seconds, the warning is
suppressed and nothing but the reload happens. -/
theorem recency_guard_suppression
    (cfg : Mapping) (st : Watcher) (fs : Fsys) (now : Nat) (k : EventKind)
    (p s : Path)
    (hk : k = EventKind.create ∨ k = EventKind.modify)
    (hns : lookupK cfg p = none)
    (hrev : lookupK (buildReverse cfg) p = some s) :
    ((∀ t, (p, t) ∈ st.recently_synced → 2 ≤ now - t) →
      handle_event cfg st fs now ⟨k, [p]⟩ =
        ⟨⟨cfg, buildReverse cfg, st.last_known_content,
          st.recently_synced.filter (fun e => now - e.2 < 5)⟩, fs,
         [Effect.reloadConfig, Effect.desyncWarn p s], false⟩) ∧
    (∀ t, lookupK st.recently_synced p = some t → now - t < 2 →
      handle_event cfg st fs now ⟨k, [p]⟩ =
        ⟨⟨cfg, buildReverse cfg, st.last_known_content,
          st.recently_synced.filter (fun e => now - e.2 < 5)⟩, fs,
         [Effect.reloadConfig], false⟩) := by
  have hk3 : k = EventKind.create ∨ k = EventKind.modify ∨
      k = EventKind.remove := by
    rcases hk with h | h
    · exact Or.inl h
    · exact Or.inr (Or.inl h)
  have hknr : ¬k = EventKind.remove := by
    rcases hk with h | h <;> simp [h]
  rw [handle_event_unfold cfg st fs now k [p] hk3]
  constructor
  · intro hall
    simp only [processPaths, if_neg hknr, hns, Option.isSome_none,
      Bool.false_eq_true, if_false, hrev]
    cases hg : lookupK
        (st.recently_synced.filter (fun e => now - e.2 < 5)) p with
    | none => rfl
    | some t =>
      have hge := hall t (lookupK_filter_mem hg)
      have hnlt : ¬(now - t < 2) := by omega
      simp [hnlt]
  · intro t hg hlt
    have hkeep : lookupK
        (st.recently_synced.filter (fun e => now - e.2 < 5)) p = some t :=
      lookupK_filter _ hg (by simp; omega)
    simp only [processPaths, if_neg hknr, hns, Option.isSome_none,
      Bool.false_eq_true, if_false, hrev, hkeep]
    rw [if_pos hlt]

/-- C6 witness: the claim theorem applied in the w6 configuration with
the guard entry for d recorded at instant 9: at instant 12 the entry
is 3 seconds old and the desync warning naming d and s is emitted; at
instant 10 the entry is 1 second old and the warning is suppressed. -/
theorem recency_guard_suppression_witness :
    handle_event w6cfg w6st w6fs 12 ⟨EventKind.modify, ["d"]⟩ =
      ⟨⟨w6cfg, buildReverse w6cfg, w6st.last_known_content,
        w6st.recently_synced.filter (fun e => 12 - e.2 < 5)⟩, w6fs,
       [Effect.reloadConfig, Effect.desyncWarn "d" "s"], false⟩ ∧
    handle_event w6cfg w6st w6fs 10 ⟨EventKind.modify, ["d"]⟩ =
      ⟨⟨w6cfg, buildReverse w6cfg, w6st.last_known_content,
        w6st.recently_synced.filter (fun e => 10 - e.2 < 5)⟩, w6fs,
       [Effect.reloadConfig], false⟩ :=
  ⟨(recency_guard_suppression w6cfg w6st w6fs 12 EventKind.modify "d" "s"
      (Or.inr rfl) (by decide) (by decide)).1
      (by
        intro t ht
        simp [w6st] at ht
        omega),
   (recency_guard_suppression w6cfg w6st w6fs 10 EventKind.modify "d" "s"
      (Or.inr rfl) (by decide) (by decide)).2 9 (by decide) (by decide)⟩

/-! Claim C5. -/

theorem countEff_append (a b : List Effect) (e : Effect) :
    countEff (a ++ b) e = countEff a e + countEff b e := by
  simp [countEff, List.filter_append]

theorem lookupK_eraseK_none {α : Type} {l : List (Path × α)} {p : Path}
    (e : Path) (h : lookupK l p = none) : lookupK (eraseK l e) p = none := by
  by_cases hep : e = p
  · subst hep
    exact lookupK_eraseK_self l e
  · rw [lookupK_eraseK_ne l e p hep]
    exact h

theorem foldl_eraseK_keep_none {α : Type} :
    ∀ (ds : List Path) (r : List (Path × α)) (d : Path),
      lookupK r d = none →
      lookupK (ds.foldl (fun r' x => eraseK r' x) r) d = none
  | [], _, _ => fun h => h
  | e :: rest, r, d => fun h =>
    foldl_eraseK_keep_none rest (eraseK r e) d (lookupK_eraseK_none e h)

theorem foldl_eraseK_mem {α : Type} :
    ∀ (ds : List Path) (r : List (Path × α)) (d : Path), d ∈ ds →
      lookupK (ds.foldl (fun r' x => eraseK r' x) r) d = none
  | [], _, _ => fun h => by simp at h
  | e :: rest, r, d => fun h => by
    rw [List.foldl_cons]
    by_cases hed : e = d
    · subst hed
      exact foldl_eraseK_keep_none rest (eraseK r e) e (lookupK_eraseK_self r e)
    · have hdr : d ∈ rest := by
        rcases List.mem_cons.mp h with h' | h'
        · exact absurd h'.symm hed
        · exact h'
      exact foldl_eraseK_mem rest (eraseK r e) d hdr

/-- During a remove event the filesystem is never touched and the loop
never errors. -/
theorem processPaths_remove_fs (now : Nat) :
    ∀ (l : List Path) (st : Watcher) (fs : Fsys) (effs : List Effect),
      (processPaths now EventKind.remove st fs effs l).fs = fs ∧
      (processPaths now EventKind.remove st fs effs l).errored = false
  | [], _, _, _ => ⟨rfl, rfl⟩
  | p :: rest, st, fs, effs => by
    rw [processPaths, if_pos rfl]
    cases h : lookupK st.mappings p with
    | some dests => exact processPaths_remove_fs now rest _ fs _
    | none => exact processPaths_remove_fs now rest st fs effs

/-- Once the removed source p is gone from the mapping and the reverse
entries of its destinations are gone, the rest of a remove event keeps
them gone, emits no further source-deleted warning for p, and only
appends to the trace. -/
theorem processPaths_remove_post (now : Nat) (p : Path) (dests : List Path) :
    ∀ (l : List Path) (st : Watcher) (fs : Fsys) (effs : List Effect),
      lookupK st.mappings p = none →
      (∀ d, d ∈ dests → lookupK st.reverse_mappings d = none) →
      countEff (processPaths now EventKind.remove st fs effs l).effects
          (Effect.sourceDeletedWarn p dests) =
        countEff effs (Effect.sourceDeletedWarn p dests) ∧
      lookupK (processPaths now EventKind.remove st fs effs l).st.mappings p
        = none ∧
      (∀ d, d ∈ dests →
        lookupK (processPaths now EventKind.remove st fs effs l).st.reverse_mappings
          d = none) ∧
      (∀ x, x ∈ effs →
        x ∈ (processPaths now EventKind.remove st fs effs l).effects)
  | [], st, fs, effs => fun hp hrev =>
    ⟨rfl, hp, hrev, fun _ hx => hx⟩
  | q :: rest, st, fs, effs => fun hp hrev => by
    rw [processPaths, if_pos rfl]
    cases h : lookupK st.mappings q with
    | none => exact processPaths_remove_post now p dests rest st fs effs hp hrev
    | some dq =>
      have hqp : q ≠ p := by
        intro hqp
        rw [hqp, hp] at h
        cases h
      have hp' : lookupK (eraseK st.mappings q) p = none :=
        lookupK_eraseK_none q hp
      have hrev' : ∀ d, d ∈ dests →
          lookupK (dq.foldl (fun r' x => eraseK r' x) st.reverse_mappings) d
            = none :=
        fun d hd => foldl_eraseK_keep_none dq _ d (hrev d hd)
      have ih := processPaths_remove_post now p dests rest
        { st with mappings := eraseK st.mappings q,
                  reverse_mappings :=
                    dq.foldl (fun r' x => eraseK r' x) st.reverse_mappings }
        fs
        (effs ++ [Effect.sourceDeletedWarn q dq,
          Effect.saveConfig (eraseK st.mappings q)])
        hp' hrev'
      have hcnt : countEff
          [Effect.sourceDeletedWarn q dq,
            Effect.saveConfig (eraseK st.mappings q)]
          (Effect.sourceDeletedWarn p dests) = 0 := by
        simp [countEff, hqp]
      refine ⟨?_, ih.2.1, ih.2.2.1, fun x hx => ih.2.2.2 x (List.mem_append_left _ hx)⟩
      rw [ih.1, countEff_append, hcnt, Nat.add_zero]

/-- The first occurrence of a tracked source p in a remove event emits
its single source-deleted warning, removes and saves the mapping, and
empties the reverse entries of its destinations; nothing that follows
undoes any of it. -/
theorem processPaths_remove_spec (now : Nat) (p : Path) (dests : List Path) :
    ∀ (l : List Path) (st : Watcher) (fs : Fsys) (effs : List Effect),
      p ∈ l →
      lookupK st.mappings p = some dests →
      countEff effs (Effect.sourceDeletedWarn p dests) = 0 →
      countEff (processPaths now EventKind.remove st fs effs l).effects
        (Effect.sourceDeletedWarn p dests) = 1 ∧
      lookupK (processPaths now EventKind.remove st fs effs l).st.mappings p
        = none ∧
      (∃ m, Effect.saveConfig m ∈
          (processPaths now EventKind.remove st fs effs l).effects ∧
        lookupK m p = none) ∧
      (∀ d, d ∈ dests →
        lookupK (processPaths now EventKind.remove st fs effs l).st.reverse_mappings
          d = none)
  | [], _, _, _ => fun hpl => by simp at hpl
  | q :: rest, st, fs, effs => fun hpl hm hc0 => by
    rw [processPaths, if_pos rfl]
    by_cases hqp : q = p
    · subst hqp
      rw [hm]
      have hp' : lookupK (eraseK st.mappings q) q = none :=
        lookupK_eraseK_self _ _
      have hrev' : ∀ d, d ∈ dests →
          lookupK (dests.foldl (fun r' x => eraseK r' x) st.reverse_mappings) d
            = none :=
        fun d hd => foldl_eraseK_mem dests _ d hd
      have post := processPaths_remove_post now q dests rest
        { st with mappings := eraseK st.mappings q,
                  reverse_mappings :=
                    dests.foldl (fun r' x => eraseK r' x) st.reverse_mappings }
        fs
        (effs ++ [Effect.sourceDeletedWarn q dests,
          Effect.saveConfig (eraseK st.mappings q)])
        hp' hrev'
      refine ⟨?_, post.2.1, ?_, post.2.2.1⟩
      · rw [post.1, countEff_append, hc0]
        simp [countEff]
      · exact ⟨eraseK st.mappings q,
          post.2.2.2 _ (List.mem_append_right _ (by simp)), hp'⟩
    · cases h : lookupK st.mappings q with
      | none =>
        have hpr : p ∈ rest := by
          rcases List.mem_cons.mp hpl with h' | h'
          · exact absurd h' (fun he => hqp he.symm)
          · exact h'
        exact processPaths_remove_spec now p dests rest st fs effs hpr hm hc0
      | some dq =>
        have hpr : p ∈ rest := by
          rcases List.mem_cons.mp hpl with h' | h'
          · exact absurd h' (fun he => hqp he.symm)
          · exact h'
        have hm' : lookupK (eraseK st.mappings q) p = some dests := by
          rw [lookupK_eraseK_ne _ q p hqp]
          exact hm
        have hc0' : countEff
            (effs ++ [Effect.sourceDeletedWarn q dq,
              Effect.saveConfig (eraseK st.mappings q)])
            (Effect.sourceDeletedWarn p dests) = 0 := by
          rw [countEff_append, hc0]
          simp [countEff, hqp]
        exact processPaths_remove_spec now p dests rest _ fs _ hpr hm' hc0'

/-- C5 (confirmed): a remove event on a currently-tracked source p
emits exactly one source-deleted warning naming all its destinations,
deletes p from the mapping, persists a mapping without p, drops the
reverse-index entries of its destinations, touches no file, and raises
no error. -/
theorem source_deletion_handling
    (cfg : Mapping) (st : Watcher) (fs : Fsys) (now : Nat)
    (paths : List Path) (p : Path) (dests : List Path) (r : HRes)
    (hp : p ∈ paths)
    (hm : lookupK cfg p = some dests)
    (hre : handle_event cfg st fs now ⟨EventKind.remove, paths⟩ = r) :
    countEff r.effects (Effect.sourceDeletedWarn p dests) = 1 ∧
    lookupK r.st.mappings p = none ∧
    (∃ m, Effect.saveConfig m ∈ r.effects ∧ lookupK m p = none) ∧
    (∀ d, d ∈ dests → lookupK r.st.reverse_mappings d = none) ∧
    r.fs = fs ∧ r.errored = false := by
  subst hre
  rw [handle_event_unfold cfg st fs now EventKind.remove paths
    (Or.inr (Or.inr rfl))]
  have spec := processPaths_remove_spec now p dests paths
    ⟨cfg, buildReverse cfg, st.last_known_content,
      st.recently_synced.filter (fun e => now - e.2 < 5)⟩
    fs [Effect.reloadConfig] hp hm (by simp [countEff])
  have hfs := processPaths_remove_fs now paths
    ⟨cfg, buildReverse cfg, st.last_known_content,
      st.recently_synced.filter (fun e => now - e.2 < 5)⟩
    fs [Effect.reloadConfig]
  exact ⟨spec.1, spec.2.1, spec.2.2.1, spec.2.2.2, hfs.1, hfs.2⟩

/-- C5 witness: the claim theorem applied to the w5 configuration,
removing the tracked source s that owns d. -/
theorem source_deletion_handling_witness :
    countEff w5r.effects (Effect.sourceDeletedWarn "s" ["d"]) = 1 ∧
    lookupK w5r.st.mappings "s" = none ∧
    lookupK w5r.st.reverse_mappings "d" = none ∧
    w5r.fs = w5fs ∧ w5r.errored = false := by
  have h := source_deletion_handling w5cfg w5st w5fs 7 ["s"] "s" ["d"] w5r
    (by decide) (by decide) rfl
  exact ⟨h.1, h.2.1, h.2.2.2.1 "d" (by decide), h.2.2.2.2.1, h.2.2.2.2.2⟩

/-! Claim C9. -/

theorem insertK_cons_self {α : Type} (a : Path) (w v : α) (t : List (Path × α)) :
    insertK ((a, w) :: t) a v = (a, v) :: t := by
  simp [insertK]

theorem insertK_cons_ne {α : Type} {a k : Path} (w v : α) (t : List (Path × α))
    (h : a ≠ k) : insertK ((a, w) :: t) k v = (a, w) :: insertK t k v := by
  simp [insertK, h]

theorem keyCount_cons {α : Type} (a : Path) (w : α) (t : List (Path × α))
    (k : Path) :
    keyCount ((a, w) :: t) k = (if a = k then 1 else 0) + keyCount t k := by
  by_cases h : a = k
  · simp [keyCount, List.filter_cons, h, Nat.add_comm]
  · simp [keyCount, List.filter_cons, h]

theorem keyCount_insertK_ne {α : Type} (l : List (Path × α)) (k k' : Path)
    (v : α) (h : k ≠ k') : keyCount (insertK l k v) k' = keyCount l k' := by
  induction l with
  | nil => simp [insertK, keyCount_cons, keyCount, h]
  | cons e t ih =>
    obtain ⟨a, w⟩ := e
    by_cases hak : a = k
    · subst hak
      rw [insertK_cons_self, keyCount_cons, keyCount_cons]
    · rw [insertK_cons_ne w v t hak, keyCount_cons, keyCount_cons, ih]

theorem keyCount_le_one_insertK {α : Type} (l : List (Path × α)) (k : Path)
    (v : α) (k' : Path) (h : keyCount l k' ≤ 1) :
    keyCount (insertK l k v) k' ≤ 1 := by
  induction l with
  | nil =>
    by_cases hkk : k = k' <;> simp [insertK, keyCount_cons, keyCount, hkk]
  | cons e t ih =>
    obtain ⟨a, w⟩ := e
    rw [keyCount_cons] at h
    by_cases hak : a = k
    · subst hak
      rw [insertK_cons_self, keyCount_cons]
      exact h
    · rw [insertK_cons_ne w v t hak, keyCount_cons]
      by_cases hak' : a = k'
      · have hkk' : k ≠ k' := fun he => hak (hak'.trans he.symm)
        rw [if_pos hak'] at h ⊢
        rw [keyCount_insertK_ne t k k' v hkk']
        exact h
      · rw [if_neg hak'] at h ⊢
        rw [Nat.zero_add] at h ⊢
        exact ih h

theorem innerFold_keyCount (s : Path) :
    ∀ (l : List Path) (r : List (Path × Path)) (k : Path),
      keyCount r k ≤ 1 →
      keyCount (l.foldl (fun r' d => insertK r' d s) r) k ≤ 1
  | [], _, _ => fun h => h
  | d :: rest, r, k => fun h =>
    innerFold_keyCount s rest (insertK r d s) k
      (keyCount_le_one_insertK r d s k h)

theorem outerFold_keyCount :
    ∀ (m : Mapping) (r : List (Path × Path)) (k : Path),
      keyCount r k ≤ 1 →
      keyCount (m.foldl
        (fun r e => e.2.foldl (fun r' d => insertK r' d e.1) r) r) k ≤ 1
  | [], _, _ => fun h => h
  | e :: rest, r, k => fun h =>
    outerFold_keyCount rest _ k (innerFold_keyCount e.1 e.2 r k h)

theorem innerFold_sound (m : Mapping) (s : Path) (ds0 : List Path)
    (hm : (s, ds0) ∈ m) :
    ∀ (l : List Path) (r : List (Path × Path)),
      (∀ x, x ∈ l → x ∈ ds0) →
      (∀ d t, lookupK r d = some t → ∃ ds, (t, ds) ∈ m ∧ d ∈ ds) →
      ∀ d t, lookupK (l.foldl (fun r' x => insertK r' x s) r) d = some t →
        ∃ ds, (t, ds) ∈ m ∧ d ∈ ds
  | [], _ => fun _ hr => hr
  | x :: rest, r => fun hsub hr =>
    innerFold_sound m s ds0 hm rest (insertK r x s)
      (fun y hy => hsub y (List.mem_cons_of_mem _ hy))
      (fun d t hl => by
        by_cases hxd : x = d
        · subst hxd
          rw [lookupK_insertK_self] at hl
          injection hl with ht
          subst ht
          exact ⟨ds0, hm, hsub x (List.mem_cons_self _ _)⟩
        · rw [lookupK_insertK_ne r x d s hxd] at hl
          exact hr d t hl)

theorem outerFold_sound (m : Mapping) :
    ∀ (m' : Mapping) (r : List (Path × Path)),
      (∀ e, e ∈ m' → e ∈ m) →
      (∀ d t, lookupK r d = some t → ∃ ds, (t, ds) ∈ m ∧ d ∈ ds) →
      ∀ d t, lookupK (m'.foldl
          (fun r e => e.2.foldl (fun r' x => insertK r' x e.1) r) r) d = some t →
        ∃ ds, (t, ds) ∈ m ∧ d ∈ ds
  | [], _ => fun _ hr => hr
  | e :: rest, r => fun hsub hr =>
    outerFold_sound m rest _ (fun x hx => hsub x (List.mem_cons_of_mem _ hx))
      (innerFold_sound m e.1 e.2 (hsub e (List.mem_cons_self _ _)) e.2 r
        (fun x hx => hx) hr)

/-- C9 (confirmed): after a rebuild of the reverse index, each
destination has at most one binding, and the recorded owner of a
destination is a source that really lists it in the mapping — even when
the mapping lists the same destination under several sources.  The
desync warning for such a destination therefore names exactly the one
recorded owner. -/
theorem reverse_index_single_owner (m : Mapping) (d : Path) :
    keyCount (buildReverse m) d ≤ 1 ∧
    ∀ s, lookupK (buildReverse m) d = some s →
      ∃ ds, (s, ds) ∈ m ∧ d ∈ ds := by
  constructor
  · exact outerFold_keyCount m [] d (by simp [keyCount])
  · intro s hs
    exact outerFold_sound m m [] (fun e he => he)
      (fun d' t hl => by simp [lookupK] at hl) d s hs

/-- C9 witness: the claim theorem applied to a mapping that lists the
same destination d under the two sources a and b. -/
theorem reverse_index_single_owner_witness :
    keyCount (buildReverse [("a", ["d"]), ("b", ["d"])]) "d" ≤ 1 :=
  (reverse_index_single_owner [("a", ["d"]), ("b", ["d"])] "d").1

end Mdman
